import Mathlib

/-! Verification of the gadget gate-bootstrapping core of this repository
    (files src/tfhe/src/gadget/encoding.rs, engine.rs, server_key.rs,
    ciphertext.rs).  Machine integers (u32, u64, u128, usize) are modelled as
    Nat with an explicit reduction modulo 2 ^ 32 at every point where the
    source narrows a value to u32; Vec becomes List Nat.  The primitive
    LWE/GLWE algorithms live outside the provided sources and are modelled
    from the specification where noted. -/

namespace TfheGadget

/-- The `Encoding` struct of src/tfhe/src/gadget/encoding.rs (lines 3-19).
    Field names and order follow the source. -/
structure Encoding where
  tt_value : Nat
  pin_count : Nat
  input_mappings_0 : List Nat
  input_mappings_1 : List Nat
  output_encodings_0 : List Nat
  output_encodings_1 : List Nat
  new_0 : Nat
  new_1 : Nat
  p : Nat
  new_p : Nat
deriving DecidableEq

/-- `Encoding::new_canonical` (encoding.rs lines 48-69): zero mappings for 0,
    `new_0 = 0`, `new_1 = 1`, `new_p = p`. -/
def new_canonical (tt_value pin_count : Nat) (input_mappings_1 output_encodings_0 output_encodings_1 : List Nat) (p : Nat) : Encoding :=
  { tt_value := tt_value
    pin_count := pin_count
    input_mappings_0 := List.replicate pin_count 0
    input_mappings_1 := input_mappings_1
    output_encodings_0 := output_encodings_0
    output_encodings_1 := output_encodings_1
    new_0 := 0
    new_1 := 1
    p := p
    new_p := p }

/-- Value written at even index `2 * i` by `Encoding::create_accumulator`
    (encoding.rs lines 81-86): `new_0` when `alpha = i` is listed in
    `output_encodings_0`, else `new_1`. -/
def accEven (e : Encoding) (i : Nat) : Nat :=
  if i ∈ e.output_encodings_0 then e.new_0 else e.new_1

/-- Value written at odd index `2 * i + 1` by `Encoding::create_accumulator`
    (encoding.rs lines 88-93): `(new_p - new_0) % new_p` when
    `beta = (i + (p + 1) / 2) % p` is listed in `output_encodings_0`, else
    `(new_p - new_1) % new_p`.  The u32 subtraction is modelled by Nat
    subtraction; it matches the source whenever `new_0, new_1 <= new_p`,
    which holds for every canonical encoding. -/
def accOdd (e : Encoding) (i : Nat) : Nat :=
  if (i + (e.p + 1) / 2) % e.p ∈ e.output_encodings_0
  then (e.new_p - e.new_0) % e.new_p
  else (e.new_p - e.new_1) % e.new_p

/-- One iteration of the loop in `Encoding::create_accumulator`
    (encoding.rs lines 79-94): writes indices `2 * i` and `2 * i + 1`. -/
def accStep (e : Encoding) (acc : List Nat) (i : Nat) : List Nat :=
  (acc.set (2 * i) (accEven e i)).set (2 * i + 1) (accOdd e i)

/-- `Encoding::create_accumulator` (encoding.rs lines 71-97): starts from a
    zero vector of length `p + 1` and runs the loop for
    `i` in `0..(p + 1) / 2`. -/
def create_accumulator (e : Encoding) : List Nat :=
  (List.range ((e.p + 1) / 2)).foldl (accStep e) (List.replicate (e.p + 1) 0)

/-- Lower bound of the accumulator-body index interval filled with
    `encoding_acc[i]` by `Memory::as_buffers` (engine.rs lines 82-95):
    interval `[0, h)` for `i = 0`, `[(i - 1) * (N / p) + h, i * (N / p) + h)`
    for `0 < i < p`, and `[N - h, N)` for `i = p`, with `h = N / (2 * p)`. -/
def fillLo (p n i : Nat) : Nat :=
  if i = 0 then 0
  else if i < p then (i - 1) * (n / p) + n / (2 * p)
  else n - n / (2 * p)

/-- Upper bound of the accumulator-body index interval filled with
    `encoding_acc[i]` by `Memory::as_buffers` (engine.rs lines 82-95). -/
def fillHi (p n i : Nat) : Nat :=
  if i = 0 then n / (2 * p)
  else if i < p then i * (n / p) + n / (2 * p)
  else n

/-- The lift of a value to the native modulus used by `GadgetEngine::encrypt`
    (engine.rs line 279) and by the `Trivial(true)` branch of
    `evaluate_gate` (engine.rs lines 386-388):
    `(((1u64 << 32) * v) / p) as u32`. -/
def encodePlain (p v : Nat) : Nat :=
  2 ^ 32 * v / p % 2 ^ 32

/-- The lift of an accumulator entry used by the body fill in
    `Memory::as_buffers` (engine.rs lines 83, 87, 94):
    `(((1u64 << 32) / p) * v) as u32`. -/
def accLift (p v : Nat) : Nat :=
  2 ^ 32 / p * v % 2 ^ 32

/-- Rounding to the nearest integer of `v * 2 ^ 32 / p` (round half up), the
    lift named by the specification: `encode(v) = round(v * 2^32 / p)`. -/
def roundLift (p v : Nat) : Nat :=
  (2 * (2 ^ 32 * v) + p) / (2 * p)

/-- The p-ary decode applied by `GadgetEngine::decrypt` to a raw decrypted
    u32 word (engine.rs line 305):
    `((((d as u64) * (p as u64)) + (1 << 31)) >> 32) as u32 % p`. -/
def decode_raw (p d : Nat) : Nat :=
  (d % 2 ^ 32 * p + 2 ^ 31) / 2 ^ 32 % 2 ^ 32 % p

/-- The `Ciphertext` enum of src/tfhe/src/gadget/ciphertext.rs: an owned LWE
    ciphertext over the native u32 modulus (its container of `n + 1` words,
    mask then body last), or a clear boolean. -/
inductive Ciphertext where
  | Encrypted (c : List Nat)
  | Trivial (b : Bool)
deriving DecidableEq

/-- `GadgetEngine::decrypt` (engine.rs lines 295-309), with the raw LWE
    decryption primitive `decrypt_lwe_ciphertext` of the external
    core-crypto library abstracted as a function `dec` returning a u32 word
    (modelled by the reduction modulo 2 ^ 32).  `Trivial(b)` returns
    `b as u32`. -/
def decrypt (dec : List Nat → Nat) (e : Encoding) (ct : Ciphertext) : Nat :=
  match ct with
  | .Encrypted lwe_ct => decode_raw e.p (dec lwe_ct)
  | .Trivial b => if b then 1 else 0

/-- Modelled from the spec: `lwe_ciphertext_cleartext_mul` of the external
    core-crypto library (spec section 6), the exact cleartext multiply of
    every coefficient in the native u32 modulus. -/
def lwe_ciphertext_cleartext_mul (c : List Nat) (s : Nat) : List Nat :=
  c.map (fun x => x * s % 2 ^ 32)

/-- Modelled from the spec: `lwe_ciphertext_add_assign` of the external
    core-crypto library (spec section 6), componentwise addition in the
    native u32 modulus. -/
def lwe_ciphertext_add_assign (a b : List Nat) : List Nat :=
  List.zipWith (fun x y => (x + y) % 2 ^ 32) a b

/-- Modelled from the spec: `lwe_ciphertext_plaintext_add_assign` of the
    external core-crypto library (spec section 6), which adds a plaintext
    word to the body coefficient (the last container word) only. -/
def lwe_ciphertext_plaintext_add_assign (a : List Nat) (pt : Nat) : List Nat :=
  a.set (a.length - 1) ((a.getD (a.length - 1) 0 + pt) % 2 ^ 32)

/-- One iteration of the `izip!` loop of `GadgetEngine::evaluate_gate`
    (engine.rs lines 369-395): the pair holds the pin scalar and the pin
    ciphertext. -/
def gateStep (e : Encoding) (sum_ct : List Nat) (pr : Nat × Ciphertext) : List Nat :=
  match pr.2 with
  | .Encrypted ct => lwe_ciphertext_add_assign sum_ct (lwe_ciphertext_cleartext_mul ct pr.1)
  | .Trivial b =>
      if b then lwe_ciphertext_plaintext_add_assign sum_ct (encodePlain e.p pr.1)
      else sum_ct

/-- The linear combination built by `GadgetEngine::evaluate_gate`
    (engine.rs lines 357-395): the all-zero LWE ciphertext of length
    `n + 1`, folded over `izip!(input_mappings_1.iter().rev(), inputs)`. -/
def gate_sum (e : Encoding) (n : Nat) (inputs : List Ciphertext) : List Nat :=
  (e.input_mappings_1.reverse.zip inputs).foldl (gateStep e) (List.replicate (n + 1) 0)

/-- Contribution of one scalar/ciphertext pair to coefficient `j` of the
    gate sum, before the modular reduction. -/
def pairContribution (e : Encoding) (n j : Nat) (pr : Nat × Ciphertext) : Nat :=
  match pr.2 with
  | .Encrypted c => c.getD j 0 * pr.1
  | .Trivial b =>
      if b then (if j = n then encodePlain e.p pr.1 else 0) else 0

/-- Contribution of pin `i` to coefficient `j` of the gate sum, with the
    scalar taken at the reversed position `m - 1 - i` of
    `input_mappings_1`, as the claim states it. -/
def pinContribution (e : Encoding) (n j : Nat) (inputs : List Ciphertext) (i : Nat) : Nat :=
  pairContribution e n j
    (e.input_mappings_1.getD (e.input_mappings_1.length - 1 - i) 0, inputs.getD i (.Trivial false))

/-- Size discipline of the external LWE containers: an `Encrypted` input of
    `evaluate_gate` holds `n + 1` words under the small key. -/
def encLenOK (n : Nat) (ct : Ciphertext) : Bool :=
  match ct with
  | .Encrypted c => c.length == n + 1
  | .Trivial _ => true

/-- Modelled from the spec: the two infallible primitives consumed by the
    bootstrapper (spec sections 4.4 and 6) —
    `programmable_bootstrap_lwe_ciphertext` applied to a bootstrap key, an
    accumulator body and an input LWE ciphertext, and
    `keyswitch_lwe_ciphertext` applied to a keyswitch key and an input LWE
    ciphertext.  Both are abstract total functions on containers. -/
structure LwePrimOps where
  pbs : List Nat → List Nat → List Nat → List Nat
  keyswitch : List Nat → List Nat → List Nat

/-- The `ServerKey` of src/tfhe/src/gadget/server_key.rs, with the two key
    containers kept abstract and the two dimensions the engine reads from
    them (`polynomial_size` and `input_lwe_dimension` of the bootstrap
    key). -/
structure ServerKey where
  bootstrapping_key : List Nat
  key_switching_key : List Nat
  polynomial_size : Nat
  input_lwe_dimension : Nat
deriving DecidableEq

/-- `slice[a..b].fill(v)` on a list of u32 words: every index in `[a, b)`
    receives `v`, all other indices keep their value. -/
def sliceFill (l : List Nat) (a b v : Nat) : List Nat :=
  (List.range l.length).map (fun j => if a ≤ j ∧ j < b then v else l.getD j 0)

/-- The accumulator-body fill of `Memory::as_buffers` (engine.rs lines
    76-96): the three groups of slice writes, each filling with the u32 cast
    of `((1u64 << 32) / p) * encoding_acc[i]`, applied to the current body
    content `init`. -/
def fillBody (e : Encoding) (n : Nat) (init : List Nat) : List Nat :=
  let p := e.p
  let half_window := n / (2 * p)
  let encoding_acc := create_accumulator e
  let b0 := sliceFill init 0 half_window (accLift p (encoding_acc.getD 0 0))
  let b1 := (List.range' 1 (p - 1)).foldl
    (fun b i =>
      sliceFill b ((i - 1) * (n / p) + half_window) (i * (n / p) + half_window)
        (accLift p (encoding_acc.getD i 0)))
    b0
  sliceFill b1 (n - half_window) n (accLift p (encoding_acc.getD p 0))

/-- `Bootstrapper::bootstrap_keyswitch` (engine.rs lines 136-180): builds
    the accumulator body from the encoding, runs the PBS into the post-PBS
    buffer, keyswitches that buffer back into the incoming ciphertext and
    returns it wrapped as `Encrypted`.  The FFT plan and scratch sizing have
    no observable effect on the result and are not modelled. -/
def bootstrap_keyswitch (ops : LwePrimOps) (sk : ServerKey) (e : Encoding) (ciphertext : List Nat) : Except String Ciphertext :=
  let accumulator := fillBody e sk.polynomial_size (List.replicate sk.polynomial_size 0)
  let buffer_lwe_after_pbs := ops.pbs sk.bootstrapping_key accumulator ciphertext
  let after_ks := ops.keyswitch sk.key_switching_key buffer_lwe_after_pbs
  Except.ok (Ciphertext.Encrypted after_ks)

/-- `GadgetEngine::bootstrap` (engine.rs lines 334-347): dispatches
    `Encrypted` to `bootstrap_keyswitch` and passes `Trivial` through. -/
def bootstrap (ops : LwePrimOps) (sk : ServerKey) (e : Encoding) (ct : Ciphertext) : Except String Ciphertext :=
  match ct with
  | .Encrypted lwe_ct => bootstrap_keyswitch ops sk e lwe_ct
  | .Trivial c => Except.ok (.Trivial c)

/-- Observable outcome of a Rust call that may return a `Result` or abort
    the thread through a failed assertion. -/
inductive EvalOutcome where
  | ok (c : Ciphertext)
  | error (msg : String)
  | panicked
deriving DecidableEq

/-- `GadgetEngine::evaluate_gate` (engine.rs lines 349-400): the
    `assert_eq!(encoding.pin_count, input_ciphertexts.len())` on line 355
    aborts by panic when the lengths differ; otherwise the gate sum is
    formed and bootstrapped. -/
def evaluate_gate (ops : LwePrimOps) (sk : ServerKey) (e : Encoding) (input_ciphertexts : List Ciphertext) : EvalOutcome :=
  if e.pin_count = input_ciphertexts.length then
    match bootstrap ops sk e (.Encrypted (gate_sum e sk.input_lwe_dimension input_ciphertexts)) with
    | .ok c => .ok c
    | .error msg => .error msg
  else .panicked

/-- A well-typed JSON value as far as the `Encoding` struct is concerned:
    an unsigned integer or an array of unsigned integers. -/
inductive JVal where
  | num (v : Nat)
  | arr (l : List Nat)
deriving DecidableEq

/-- A JSON object: its named fields in order. -/
def JObj : Type := List (String × JVal)

/-- First value bound to key `k`, as a JSON map lookup. -/
def jGet (o : JObj) (k : String) : Option JVal :=
  (o.find? (fun kv => kv.1 == k)).map (fun kv => kv.2)

/-- Required integer field of a derived serde deserializer: a missing field
    is an error, a present field must be a number. -/
def getNum (o : JObj) (k : String) : Except String Nat :=
  match jGet o k with
  | some (.num v) => Except.ok v
  | some (.arr _) => Except.error ("invalid type for field " ++ k)
  | none => Except.error ("missing field " ++ k)

/-- Required array field of a derived serde deserializer: a missing field
    is an error, a present field must be an array. -/
def getArr (o : JObj) (k : String) : Except String (List Nat) :=
  match jGet o k with
  | some (.arr l) => Except.ok l
  | some (.num _) => Except.error ("invalid type for field " ++ k)
  | none => Except.error ("missing field " ++ k)

/-- The deserializer derived by `#[derive(Deserialize)]` on `Encoding`
    (encoding.rs line 3): every declared field is required, because no field
    of the struct carries a serde `default` attribute; unknown fields are
    ignored; the first field missing in declaration order is reported. -/
def deserialize_encoding (o : JObj) : Except String Encoding := do
  let tt_value ← getNum o ("tt_value")
  let pin_count ← getNum o ("pin_count")
  let input_mappings_0 ← getArr o ("input_mappings_0")
  let input_mappings_1 ← getArr o ("input_mappings_1")
  let output_encodings_0 ← getArr o ("output_encodings_0")
  let output_encodings_1 ← getArr o ("output_encodings_1")
  let new_0 ← getNum o ("new_0")
  let new_1 ← getNum o ("new_1")
  let p ← getNum o ("p")
  let new_p ← getNum o ("new_p")
  Except.ok ⟨tt_value, pin_count, input_mappings_0, input_mappings_1, output_encodings_0, output_encodings_1, new_0, new_1, p, new_p⟩

/-- The first JSON object of the fixture in the `deserialization_works`
    test of encoding.rs (lines 130-162): exactly the six documented fields,
    in the order they appear in the file. -/
def fixtureObject1 : JObj :=
  [("input_mappings_1", JVal.arr [1, 1, 1, 1, 5, 6]),
   ("output_encodings_0", JVal.arr [0, 1, 2, 3, 4, 6, 7, 8, 9, 10, 11, 12, 13, 14, 15]),
   ("output_encodings_1", JVal.arr [5]),
   ("p", JVal.num 23),
   ("pin_count", JVal.num 6),
   ("tt_value", JVal.num 4)]

/-- The two-pin canonical AND encoding of spec section 8 scenario 1, used
    as a concrete instance. -/
def andEncoding : Encoding :=
  new_canonical 8 2 [1, 1] [0, 1] [2] 3

/-- A concrete primitive instance: both primitives return their ciphertext
    argument unchanged. -/
def idOps : LwePrimOps :=
  { pbs := fun _ _ ct => ct, keyswitch := fun _ ct => ct }

/-- A concrete server key instance with empty key containers. -/
def smallServerKey : ServerKey :=
  { bootstrapping_key := [], key_switching_key := [], polynomial_size := 0, input_lwe_dimension := 1 }

/-! ## Theorems -/

/-- Claim C6: for every server key, encoding and input LWE ciphertext,
    `bootstrap_keyswitch` first applies the programmable bootstrap (into the
    post-PBS buffer), then applies the keyswitch from that buffer back into
    the incoming ciphertext, returns it wrapped as `Encrypted`, and never
    returns an error. -/
theorem bootstrap_keyswitch_spec (ops : LwePrimOps) (sk : ServerKey) (e : Encoding) (ct : List Nat) :
    bootstrap_keyswitch ops sk e ct =
      Except.ok (Ciphertext.Encrypted
        (ops.keyswitch sk.key_switching_key
          (ops.pbs sk.bootstrapping_key
            (fillBody e sk.polynomial_size (List.replicate sk.polynomial_size 0)) ct))) := rfl

/-- Claim C10: bootstrapping `Trivial b` returns `Trivial b` unchanged and
    never consults the encoding (the result is the same for any two
    encodings), unlike an `Encrypted` input, which goes through the PBS with
    the lookup accumulator built from the encoding. -/
theorem bootstrap_trivial_passthrough (ops : LwePrimOps) (sk : ServerKey) (e e2 : Encoding) (b : Bool) (c : List Nat) :
    bootstrap ops sk e (.Trivial b) = Except.ok (.Trivial b) ∧
    bootstrap ops sk e (.Trivial b) = bootstrap ops sk e2 (.Trivial b) ∧
    bootstrap ops sk e (.Encrypted c) =
      Except.ok (Ciphertext.Encrypted
        (ops.keyswitch sk.key_switching_key
          (ops.pbs sk.bootstrapping_key
            (fillBody e sk.polynomial_size (List.replicate sk.polynomial_size 0)) c))) :=
  ⟨rfl, rfl, rfl⟩

/-- Claim C7: `decrypt` is a total function and its result is strictly below
    `p` whenever `p ≥ 2`; a `Trivial b` input decrypts to `b` as 0 or 1. -/
theorem decrypt_total_lt_p (dec : List Nat → Nat) (e : Encoding) (ct : Ciphertext) (hp : 2 ≤ e.p) :
    decrypt dec e ct < e.p ∧
    decrypt dec e (.Trivial true) = 1 ∧ decrypt dec e (.Trivial false) = 0 := by
  refine ⟨?_, rfl, rfl⟩
  cases ct with
  | Encrypted lwe_ct =>
      exact Nat.mod_lt _ (by omega)
  | Trivial b =>
      cases b <;> simp [decrypt] <;> omega

/-- Witness for claim C7 at a concrete input. -/
theorem decrypt_total_lt_p_witness :
    2 ≤ andEncoding.p ∧
    (decrypt (fun _ => 123456789) andEncoding (.Encrypted [1, 2]) < andEncoding.p ∧
     decrypt (fun _ => 123456789) andEncoding (.Trivial true) = 1 ∧
     decrypt (fun _ => 123456789) andEncoding (.Trivial false) = 0) :=
  ⟨by decide, decrypt_total_lt_p (fun _ => 123456789) andEncoding (.Encrypted [1, 2]) (by decide)⟩

/-- Claim C8, counterexample: on a pin-count mismatch `evaluate_gate` aborts
    through the failed assertion; it does not return a recoverable
    parameter-error result. -/
theorem evaluate_gate_mismatch_counterexample :
    evaluate_gate idOps smallServerKey andEncoding [] = EvalOutcome.panicked ∧
    evaluate_gate idOps smallServerKey andEncoding [] ≠ EvalOutcome.error ("ParameterError") := by
  constructor
  · rfl
  · decide

/-- Claim C8 as amended: for every server key, encoding and input vector
    whose length differs from `pin_count`, `evaluate_gate` panics through
    `assert_eq!` at the call boundary (producing no other output), rather
    than returning an error result. -/
theorem evaluate_gate_mismatch_panics (ops : LwePrimOps) (sk : ServerKey) (e : Encoding) (inputs : List Ciphertext) (h : e.pin_count ≠ inputs.length) :
    evaluate_gate ops sk e inputs = EvalOutcome.panicked := by
  unfold evaluate_gate
  rw [if_neg h]

/-- Witness for the amended claim C8 at a concrete input. -/
theorem evaluate_gate_mismatch_panics_witness :
    andEncoding.pin_count ≠ ([(Ciphertext.Trivial true)] : List Ciphertext).length ∧
    evaluate_gate idOps smallServerKey andEncoding [(Ciphertext.Trivial true)] = EvalOutcome.panicked :=
  ⟨by decide, evaluate_gate_mismatch_panics idOps smallServerKey andEncoding [(Ciphertext.Trivial true)] (by decide)⟩

/-- Claim C9: the six-field JSON object taken verbatim from the fixture of
    the `deserialization_works` test fails to deserialize, because the
    derived deserializer also requires `input_mappings_0`, `new_0`, `new_1`
    and `new_p`, none of which carries a serde default. -/
theorem deserialize_fixture_missing_field :
    deserialize_encoding fixtureObject1 = Except.error ("missing field input_mappings_0") := by
  rfl

/-- Claim C4, counterexample: the encrypt lift is the floor `2^32 * v / p`,
    not the rounding to nearest (`p = 3`, `v = 2`); the accumulator-body
    lift `(2^32 / p) * v` differs from the rounding and from the encrypt
    lift (`p = 7`, `v = 2`). -/
theorem lift_round_counterexample :
    encodePlain 3 2 ≠ roundLift 3 2 ∧
    accLift 7 2 ≠ roundLift 7 2 ∧
    accLift 7 2 ≠ encodePlain 7 2 := by
  refine ⟨?_, ?_, ?_⟩ <;> decide

/-- Claim C4 as amended: for `2 ≤ p` and `v < p`, the lift used by
    encryption and by the `Trivial(true)` contribution is exactly
    `⌊2^32 * v / p⌋`, the lift used by the accumulator body fill is exactly
    `⌊2^32 / p⌋ * v`; the former is within 1 below the rounding to nearest
    and the latter is within `p` below the former. -/
theorem lift_floor_spec (p v : Nat) (hp : 2 ≤ p) (hv : v < p) :
    encodePlain p v = 2 ^ 32 * v / p ∧
    accLift p v = 2 ^ 32 / p * v ∧
    encodePlain p v ≤ roundLift p v ∧
    roundLift p v ≤ encodePlain p v + 1 ∧
    accLift p v ≤ encodePlain p v ∧
    encodePlain p v < accLift p v + p := by
  have hp0 : 0 < p := by omega
  have hqlt : 2 ^ 32 * v / p < 2 ^ 32 := by
    rw [Nat.div_lt_iff_lt_mul hp0]
    exact (Nat.mul_lt_mul_left (by positivity)).mpr hv
  have hacc_le : 2 ^ 32 / p * v ≤ 2 ^ 32 * v / p := by
    rw [Nat.le_div_iff_mul_le hp0]
    calc 2 ^ 32 / p * v * p = 2 ^ 32 / p * p * v := by ring
      _ ≤ 2 ^ 32 * v := Nat.mul_le_mul_right v (Nat.div_mul_le_self _ _)
  have hencode : encodePlain p v = 2 ^ 32 * v / p :=
    Nat.mod_eq_of_lt hqlt
  have haccval : accLift p v = 2 ^ 32 / p * v :=
    Nat.mod_eq_of_lt (Nat.lt_of_le_of_lt hacc_le hqlt)
  have hround_lo : 2 ^ 32 * v / p ≤ roundLift p v := by
    have h1 : 2 ^ 32 * v / p = 2 * (2 ^ 32 * v) / (2 * p) :=
      (Nat.mul_div_mul_left (2 ^ 32 * v) p (by omega)).symm
    rw [roundLift, h1]
    exact Nat.div_le_div_right (by omega)
  have hround_hi : roundLift p v ≤ 2 ^ 32 * v / p + 1 := by
    have hdm := Nat.div_add_mod (2 ^ 32 * v) p
    have hmlt : 2 ^ 32 * v % p < p := Nat.mod_lt _ hp0
    have hsplit : 2 * (2 ^ 32 * v) + p =
        2 * p * (2 ^ 32 * v / p) + (2 * (2 ^ 32 * v % p) + p) := by
      nlinarith [hdm]
    have hrem : (2 * (2 ^ 32 * v % p) + p) / (2 * p) ≤ 1 := by
      have : (2 * (2 ^ 32 * v % p) + p) / (2 * p) < 2 := by
        rw [Nat.div_lt_iff_lt_mul (by omega)]
        omega
      omega
    calc roundLift p v = 2 ^ 32 * v / p + (2 * (2 ^ 32 * v % p) + p) / (2 * p) := by
          rw [roundLift, hsplit, Nat.mul_add_div (by omega)]
      _ ≤ 2 ^ 32 * v / p + 1 := by omega
  have hfloor_acc : 2 ^ 32 * v / p < 2 ^ 32 / p * v + p := by
    have hdm32 := Nat.div_add_mod (2 ^ 32) p
    have hr32 : 2 ^ 32 % p < p := Nat.mod_lt _ hp0
    have hXsplit : 2 ^ 32 * v = p * (2 ^ 32 / p * v) + 2 ^ 32 % p * v := by
      nlinarith [hdm32]
    have hrv : 2 ^ 32 % p * v / p < p := by
      rw [Nat.div_lt_iff_lt_mul hp0]
      calc 2 ^ 32 % p * v ≤ 2 ^ 32 % p * p := Nat.mul_le_mul_left _ (by omega)
        _ < p * p := (Nat.mul_lt_mul_right hp0).mpr hr32
    calc 2 ^ 32 * v / p = 2 ^ 32 / p * v + 2 ^ 32 % p * v / p := by
          rw [hXsplit, Nat.mul_add_div hp0]
      _ < 2 ^ 32 / p * v + p := by omega
  refine ⟨hencode, haccval, ?_, ?_, ?_, ?_⟩
  · rw [hencode]; exact hround_lo
  · rw [hencode]; exact hround_hi
  · rw [hencode, haccval]; exact hacc_le
  · rw [hencode, haccval]; exact hfloor_acc

/-- Witness for the amended claim C4 at a concrete input. -/
theorem lift_floor_spec_witness :
    (2 ≤ 7 ∧ 2 < 7) ∧
    (encodePlain 7 2 = 2 ^ 32 * 2 / 7 ∧
     accLift 7 2 = 2 ^ 32 / 7 * 2 ∧
     encodePlain 7 2 ≤ roundLift 7 2 ∧
     roundLift 7 2 ≤ encodePlain 7 2 + 1 ∧
     accLift 7 2 ≤ encodePlain 7 2 ∧
     encodePlain 7 2 < accLift 7 2 + 7) :=
  ⟨⟨by decide, by decide⟩, lift_floor_spec 7 2 (by decide) (by decide)⟩

/-- Claim C5, counterexample: the noiseless decrypt-after-encrypt round trip
    fails at `p = 2^32 - 1`, `m = 2^31 + 1`, where the decode rounding drops
    the message by one. -/
theorem roundtrip_large_p_counterexample :
    decode_raw 4294967295 (encodePlain 4294967295 2147483649) ≠ 2147483649 := by
  decide

/-- Claim C5 as amended: for every `p` with `2 ≤ p ≤ 2^31` and every
    `m < p`, decoding the noiseless encoding of `m` returns exactly `m`. -/
theorem decode_encode_roundtrip (p m : Nat) (hp : 2 ≤ p) (hple : p ≤ 2 ^ 31) (hm : m < p) :
    decode_raw p (encodePlain p m) = m := by
  have hp0 : 0 < p := by omega
  have hqlt : 2 ^ 32 * m / p < 2 ^ 32 := by
    rw [Nat.div_lt_iff_lt_mul hp0]
    exact (Nat.mul_lt_mul_left (by positivity)).mpr hm
  have hencode : encodePlain p m = 2 ^ 32 * m / p := Nat.mod_eq_of_lt hqlt
  have hdm := Nat.div_add_mod (2 ^ 32 * m) p
  have hrlt : 2 ^ 32 * m % p < p := Nat.mod_lt _ hp0
  have hkey : 2 ^ 32 * m / p % 2 ^ 32 * p + 2 ^ 31 =
      2 ^ 32 * m + (2 ^ 31 - 2 ^ 32 * m % p) := by
    rw [Nat.mod_eq_of_lt hqlt, Nat.mul_comm]
    omega
  have hclt : 2 ^ 31 - 2 ^ 32 * m % p < 2 ^ 32 := by omega
  rw [decode_raw, hencode, hkey, Nat.mul_add_div (by positivity),
    Nat.div_eq_of_lt hclt, Nat.add_zero,
    Nat.mod_eq_of_lt (by omega : m < 2 ^ 32), Nat.mod_eq_of_lt hm]

/-- With `N = 2 * p * k` the window width is `N / p = 2 * k` and the half
    window is `N / (2 * p) = k`. -/
theorem fill_div_facts (p N k : Nat) (hp : 2 ≤ p) (hk : N = 2 * p * k) :
    N / p = 2 * k ∧ N / (2 * p) = k := by
  subst hk
  constructor
  · rw [show 2 * p * k = p * (2 * k) by ring, Nat.mul_div_cancel_left _ (by omega)]
  · rw [Nat.mul_div_cancel_left _ (by omega)]

/-- The fill intervals are consecutive: each upper bound is the next lower
    bound. -/
theorem fillHi_eq_fillLo_succ (p N k i : Nat) (hp : 2 ≤ p) (hk : N = 2 * p * k) (hi : i < p) :
    fillHi p N i = fillLo p N (i + 1) := by
  obtain ⟨hdp, hd2p⟩ := fill_div_facts p N k hp hk
  by_cases h0 : i = 0
  · subst h0
    rw [fillHi, fillLo, if_pos rfl, if_neg (show ¬(0 + 1 = 0) by omega),
      if_pos (show 0 + 1 < p by omega)]
    simp
  · by_cases hip : i + 1 < p
    · rw [fillHi, fillLo, if_neg h0, if_pos hi, if_neg (show ¬(i + 1 = 0) by omega),
        if_pos hip, Nat.add_sub_cancel]
    · rw [fillHi, fillLo, if_neg h0, if_pos hi, if_neg (show ¬(i + 1 = 0) by omega),
        if_neg hip, hdp, hd2p]
      have hip2 : i = p - 1 := by omega
      subst hip2
      obtain ⟨q, rfl⟩ : ∃ q, p = q + 1 := ⟨p - 1, by omega⟩
      have h1 : (q + 1 - 1) * (2 * k) = 2 * (q * k) := by
        rw [Nat.add_sub_cancel]; ring
      have h2 : 2 * (q + 1) * k = 2 * (q * k) + 2 * k := by ring
      omega

/-- Each fill interval is well formed: its lower bound does not exceed its
    upper bound. -/
theorem fillLo_le_fillHi (p N k i : Nat) (hp : 2 ≤ p) (hk : N = 2 * p * k) (hi : i ≤ p) :
    fillLo p N i ≤ fillHi p N i := by
  obtain ⟨hdp, hd2p⟩ := fill_div_facts p N k hp hk
  rw [fillLo, fillHi]
  by_cases h0 : i = 0
  · subst h0; simp
  · rw [if_neg h0, if_neg h0]
    by_cases hip : i < p
    · rw [if_pos hip, if_pos hip]
      have hmul : (i - 1) * (N / p) ≤ i * (N / p) :=
        Nat.mul_le_mul_right _ (by omega)
      omega
    · rw [if_neg hip, if_neg hip]
      omega

/-- Every fill interval stays inside the polynomial: upper bounds are at
    most `N`. -/
theorem fillHi_le (p N k i : Nat) (hp : 2 ≤ p) (hk : N = 2 * p * k) (hi : i ≤ p) :
    fillHi p N i ≤ N := by
  obtain ⟨hdp, hd2p⟩ := fill_div_facts p N k hp hk
  rw [fillHi]
  by_cases h0 : i = 0
  · subst h0
    rw [if_pos rfl, hd2p, hk]
    have := Nat.mul_le_mul_right k (show 1 ≤ 2 * p by omega)
    omega
  · rw [if_neg h0]
    by_cases hip : i < p
    · rw [if_pos hip, hdp, hd2p, hk]
      have h1 : i * (2 * k) ≤ (p - 1) * (2 * k) :=
        Nat.mul_le_mul_right _ (by omega)
      obtain ⟨q, rfl⟩ : ∃ q, p = q + 1 := ⟨p - 1, by omega⟩
      have h2 : (q + 1 - 1) * (2 * k) = 2 * (q * k) := by
        rw [Nat.add_sub_cancel]; ring
      have h3 : 2 * (q + 1) * k = 2 * (q * k) + 2 * k := by ring
      omega
    · rw [if_neg hip]

/-- The lower bounds of the fill intervals are nondecreasing up to index
    `p`. -/
theorem fillLo_mono (p N k : Nat) (hp : 2 ≤ p) (hk : N = 2 * p * k) :
    ∀ a b, a ≤ b → b ≤ p → fillLo p N a ≤ fillLo p N b := by
  intro a b hab hbp
  induction b with
  | zero =>
      have : a = 0 := by omega
      subst this
      exact Nat.le_refl _
  | succ b ih =>
      rcases Nat.lt_or_ge a (b + 1) with h | h
      · have hstep : fillLo p N b ≤ fillLo p N (b + 1) := by
          rw [← fillHi_eq_fillLo_succ p N k b hp hk (by omega)]
          exact fillLo_le_fillHi p N k b hp hk (by omega)
        exact Nat.le_trans (ih (by omega) (by omega)) hstep
      · have : a = b + 1 := by omega
        subst this
        exact Nat.le_refl _

/-- Every body coefficient below `N` lies in one of the fill intervals. -/
theorem fill_covers (p N k j : Nat) (hp : 2 ≤ p) (hk : N = 2 * p * k) (hj : j < N) :
    ∃ i, i ≤ p ∧ fillLo p N i ≤ j ∧ j < fillHi p N i := by
  obtain ⟨hdp, hd2p⟩ := fill_div_facts p N k hp hk
  have hk0 : 0 < k := by
    rcases Nat.eq_zero_or_pos k with h | h
    · subst h
      rw [hk] at hj
      omega
    · exact h
  rcases Nat.lt_or_ge j k with hcase0 | hcase0
  · refine ⟨0, by omega, ?_, ?_⟩
    · rw [fillLo]; simp
    · rw [fillHi, if_pos rfl, hd2p]; omega
  rcases Nat.lt_or_ge j (N - k) with hcase1 | hcase1
  · have htb : j - k < (p - 1) * (2 * k) := by
      have hx : (p - 1) * (2 * k) = 2 * p * k - 2 * k := by
        obtain ⟨q, rfl⟩ : ∃ q, p = q + 1 := ⟨p - 1, by omega⟩
        have h1 : (q + 1 - 1) * (2 * k) = 2 * (q * k) := by
          rw [Nat.add_sub_cancel]; ring
        have h2 : 2 * (q + 1) * k = 2 * (q * k) + 2 * k := by ring
        omega
      omega
    have hdm := Nat.div_add_mod (j - k) (2 * k)
    have hmod : (j - k) % (2 * k) < 2 * k := Nat.mod_lt _ (by omega)
    have hiltp : (j - k) / (2 * k) + 1 < p := by
      have := (Nat.div_lt_iff_lt_mul (by omega : 0 < 2 * k)).mpr htb
      omega
    refine ⟨(j - k) / (2 * k) + 1, by omega, ?_, ?_⟩
    · rw [fillLo, if_neg (show ¬((j - k) / (2 * k) + 1 = 0) by simp), if_pos hiltp,
        hdp, hd2p, Nat.add_sub_cancel]
      have hcm : (j - k) / (2 * k) * (2 * k) = 2 * k * ((j - k) / (2 * k)) :=
        Nat.mul_comm _ _
      generalize hq : (j - k) / (2 * k) = q at hdm hcm ⊢
      generalize hr : (j - k) % (2 * k) = r at hdm hmod
      omega
    · rw [fillHi, if_neg (show ¬((j - k) / (2 * k) + 1 = 0) by simp), if_pos hiltp,
        hdp, hd2p]
      have hsucc : ((j - k) / (2 * k) + 1) * (2 * k) = (j - k) / (2 * k) * (2 * k) + 2 * k :=
        Nat.succ_mul _ _
      have hcm : (j - k) / (2 * k) * (2 * k) = 2 * k * ((j - k) / (2 * k)) :=
        Nat.mul_comm _ _
      generalize hq : (j - k) / (2 * k) = q at hdm hsucc hcm ⊢
      generalize hr : (j - k) % (2 * k) = r at hdm hmod
      omega
  · refine ⟨p, Nat.le_refl p, ?_, ?_⟩
    · rw [fillLo, if_neg (show ¬(p = 0) by omega), if_neg (show ¬(p < p) by omega), hd2p]
      omega
    · rw [fillHi, if_neg (show ¬(p = 0) by omega), if_neg (show ¬(p < p) by omega)]
      omega

/-- Two distinct fill intervals cannot both contain a coefficient. -/
theorem fill_disjoint (p N k : Nat) (hp : 2 ≤ p) (hk : N = 2 * p * k) :
    ∀ i1 i2 j, i1 ≤ p → i2 ≤ p →
      fillLo p N i1 ≤ j → j < fillHi p N i1 →
      fillLo p N i2 ≤ j → j < fillHi p N i2 → i1 = i2 := by
  have key : ∀ a b j, a < b → b ≤ p →
      j < fillHi p N a → fillLo p N b ≤ j → False := by
    intro a b j hab hbp hhi hlo2
    have h1 : fillHi p N a = fillLo p N (a + 1) :=
      fillHi_eq_fillLo_succ p N k a hp hk (by omega)
    have h2 : fillLo p N (a + 1) ≤ fillLo p N b :=
      fillLo_mono p N k hp hk (a + 1) b (by omega) hbp
    omega
  intro i1 i2 j h1p h2p hlo1 hhi1 hlo2 hhi2
  rcases Nat.lt_trichotomy i1 i2 with h | h | h
  · exact (key i1 i2 j h h2p hhi1 hlo2).elim
  · exact h
  · exact (key i2 i1 j h h1p hhi2 hlo1).elim

/-- Claim C2: for `p ≥ 2` and `N` a multiple of `2 * p`, the index
    intervals used by `Memory::as_buffers` to fill the accumulator body —
    `[0, h)` with `acc[0]`, `[(i - 1) * w + h, i * w + h)` with `acc[i]` for
    `i` in `1..p`, and `[N - h, N)` with `acc[p]` — are pairwise disjoint
    and their union is exactly `[0, N)`, so every one of the `N` body
    coefficients is written exactly once per call. -/
theorem accumulator_fill_partition (p N : Nat) (hp : 2 ≤ p) (hd : 2 * p ∣ N) :
    (∀ j, j < N ↔ ∃ i, i ≤ p ∧ fillLo p N i ≤ j ∧ j < fillHi p N i) ∧
    (∀ i1 i2 j, i1 ≤ p → i2 ≤ p →
      fillLo p N i1 ≤ j → j < fillHi p N i1 →
      fillLo p N i2 ≤ j → j < fillHi p N i2 → i1 = i2) := by
  obtain ⟨k, hk⟩ := hd
  constructor
  · intro j
    constructor
    · exact fill_covers p N k j hp hk
    · rintro ⟨i, hip, _, hj2⟩
      exact Nat.lt_of_lt_of_le hj2 (fillHi_le p N k i hp hk hip)
  · exact fill_disjoint p N k hp hk

/-- Witness for claim C2 at `p = 2`, `N = 8`. -/
theorem accumulator_fill_partition_witness :
    (2 ≤ 2 ∧ 2 * 2 ∣ 8) ∧
    ((∀ j, j < 8 ↔ ∃ i, i ≤ 2 ∧ fillLo 2 8 i ≤ j ∧ j < fillHi 2 8 i) ∧
     (∀ i1 i2 j, i1 ≤ 2 → i2 ≤ 2 →
       fillLo 2 8 i1 ≤ j → j < fillHi 2 8 i1 →
       fillLo 2 8 i2 ≤ j → j < fillHi 2 8 i2 → i1 = i2)) :=
  ⟨⟨by decide, ⟨2, rfl⟩⟩, accumulator_fill_partition 2 8 (by decide) ⟨2, rfl⟩⟩

/-- One `evaluate_gate` loop iteration keeps the sum an LWE container of
    length `n + 1`. -/
theorem gateStep_length (e : Encoding) (n : Nat) (acc : List Nat) (pr : Nat × Ciphertext) (hlen : acc.length = n + 1) (hok : encLenOK n pr.2 = true) :
    (gateStep e acc pr).length = n + 1 := by
  match pr with
  | (s, .Encrypted c) =>
      simp only [encLenOK, beq_iff_eq] at hok
      simp [gateStep, lwe_ciphertext_add_assign, lwe_ciphertext_cleartext_mul, hlen, hok]
  | (s, .Trivial b) =>
      cases b <;>
        simp [gateStep, lwe_ciphertext_plaintext_add_assign, hlen]

/-- One `evaluate_gate` loop iteration keeps every coefficient of the sum a
    u32 word. -/
theorem gateStep_bound (e : Encoding) (_n : Nat) (acc : List Nat) (pr : Nat × Ciphertext) (hbound : ∀ x ∈ acc, x < 2 ^ 32) :
    ∀ x ∈ gateStep e acc pr, x < 2 ^ 32 := by
  match pr with
  | (s, .Encrypted c) =>
      intro x hx
      simp only [gateStep, lwe_ciphertext_add_assign] at hx
      rw [List.mem_iff_getElem] at hx
      obtain ⟨i, hi, hxv⟩ := hx
      rw [List.getElem_zipWith] at hxv
      omega
  | (s, .Trivial b) =>
      cases b
      · exact hbound
      · intro x hx
        simp only [gateStep, if_true] at hx
        rcases List.mem_or_eq_of_mem_set hx with hmem | hval
        · exact hbound x hmem
        · omega

/-- Coefficient `j` of the sum after one `evaluate_gate` loop iteration:
    the previous coefficient plus the contribution of the pair, reduced in
    the native modulus. -/
theorem gateStep_getD (e : Encoding) (n j : Nat) (acc : List Nat) (pr : Nat × Ciphertext) (hlen : acc.length = n + 1) (hbound : ∀ x ∈ acc, x < 2 ^ 32) (hok : encLenOK n pr.2 = true) (hj : j < n + 1) :
    (gateStep e acc pr).getD j 0 = (acc.getD j 0 + pairContribution e n j pr) % 2 ^ 32 := by
  have haccj : acc.getD j 0 < 2 ^ 32 := by
    rw [List.getD_eq_getElem?_getD, List.getElem?_eq_getElem (by omega)]
    exact hbound _ (List.getElem_mem _)
  match pr with
  | (s, .Encrypted c) =>
      simp only [encLenOK, beq_iff_eq] at hok
      have hgs : gateStep e acc (s, .Encrypted c) =
          List.zipWith (fun x y => (x + y) % 2 ^ 32) acc (c.map (fun x => x * s % 2 ^ 32)) := rfl
      have hpc : pairContribution e n j (s, .Encrypted c) = c.getD j 0 * s := rfl
      have hjc : j < c.length := by omega
      have hja : j < acc.length := by omega
      have hjz : j < (List.zipWith (fun x y => (x + y) % 2 ^ 32) acc (c.map (fun x => x * s % 2 ^ 32))).length := by
        simp
        omega
      rw [hgs, hpc, List.getD_eq_getElem?_getD, List.getElem?_eq_getElem hjz, Option.getD_some,
        List.getElem_zipWith, List.getElem_map, List.getD_eq_getElem?_getD,
        List.getD_eq_getElem?_getD, List.getElem?_eq_getElem hja, List.getElem?_eq_getElem hjc,
        Option.getD_some, Option.getD_some]
      omega
  | (s, .Trivial b) =>
      cases b
      · simp only [gateStep, pairContribution, Bool.false_eq_true, if_false]
        omega
      · simp only [gateStep, pairContribution, if_true, lwe_ciphertext_plaintext_add_assign]
        rcases eq_or_ne j n with hjn | hjn
        · subst hjn
          have hidx : acc.length - 1 = j := by omega
          rw [hidx, List.getD_eq_getElem?_getD,
            List.getElem?_set_self (by omega), Option.getD_some, if_pos rfl]
        · have hidx : acc.length - 1 = n := by omega
          rw [hidx, List.getD_eq_getElem?_getD,
            List.getElem?_set_ne (by omega), ← List.getD_eq_getElem?_getD, if_neg hjn]
          omega

/-- The full `evaluate_gate` loop: after folding a list of scalar/pin
    pairs over a start container of u32 words of length `n + 1`, the result
    has length `n + 1`, all coefficients are u32 words, and coefficient `j`
    is the start coefficient plus the sum of all pair contributions,
    reduced in the native modulus. -/
theorem gateFold_spec (e : Encoding) (n : Nat) : ∀ (pairs : List (Nat × Ciphertext)) (acc : List Nat), (∀ pr ∈ pairs, encLenOK n pr.2 = true) → acc.length = n + 1 → (∀ x ∈ acc, x < 2 ^ 32) → (pairs.foldl (gateStep e) acc).length = n + 1 ∧ (∀ x ∈ pairs.foldl (gateStep e) acc, x < 2 ^ 32) ∧ ∀ j, j < n + 1 → (pairs.foldl (gateStep e) acc).getD j 0 = (acc.getD j 0 + (pairs.map (pairContribution e n j)).sum) % 2 ^ 32 := by
  intro pairs
  induction pairs with
  | nil =>
      intro acc _ hlen hbound
      refine ⟨hlen, hbound, ?_⟩
      intro j hj
      have haccj : acc.getD j 0 < 2 ^ 32 := by
        rw [List.getD_eq_getElem?_getD, List.getElem?_eq_getElem (by omega)]
        exact hbound _ (List.getElem_mem _)
      simp only [List.foldl_nil, List.map_nil, List.sum_nil, Nat.add_zero]
      omega
  | cons pr t ih =>
      intro acc hok hlen hbound
      have hok1 : encLenOK n pr.2 = true := hok pr (by simp)
      have hokT : ∀ q ∈ t, encLenOK n q.2 = true := by
        intro q hq; exact hok q (by simp [hq])
      have hlen1 := gateStep_length e n acc pr hlen hok1
      have hbound1 := gateStep_bound e n acc pr hbound
      obtain ⟨ihlen, ihbound, ihval⟩ := ih (gateStep e acc pr) hokT hlen1 hbound1
      refine ⟨by simpa using ihlen, by simpa using ihbound, ?_⟩
      intro j hj
      rw [List.foldl_cons, ihval j hj, gateStep_getD e n j acc pr hlen hbound hok1 hj,
        List.map_cons, List.sum_cons]
      omega

/-- The zipped pair list of `gate_sum`, mapped through the pair
    contribution, agrees with indexing the pins directly: pin `i` receives
    the scalar at the reversed position `m - 1 - i`. -/
theorem gate_pairs_map_eq (e : Encoding) (n j : Nat) (inputs : List Ciphertext) (hm : inputs.length = e.input_mappings_1.length) :
    (e.input_mappings_1.reverse.zip inputs).map (pairContribution e n j) =
      (List.range inputs.length).map (pinContribution e n j inputs) := by
  apply List.ext_getElem
  · simp [hm]
  · intro i h1 h2
    have hi : i < inputs.length := by simpa using h2
    have hirev : i < e.input_mappings_1.reverse.length := by
      simp [hm] at hi ⊢
      omega
    have hiz : i < (e.input_mappings_1.reverse.zip inputs).length := by
      simp [hm]
      omega
    have hlm : 1 ≤ e.input_mappings_1.length := by omega
    rw [List.getElem_map, List.getElem_map, List.getElem_range, List.getElem_zip, pinContribution]
    have hscal : e.input_mappings_1.getD (e.input_mappings_1.length - 1 - i) 0 =
        e.input_mappings_1.reverse[i] := by
      rw [List.getElem_reverse, List.getD_eq_getElem?_getD,
        List.getElem?_eq_getElem (by omega), Option.getD_some]
    have hinp : inputs.getD i (Ciphertext.Trivial false) = inputs[i] := by
      rw [List.getD_eq_getElem?_getD, List.getElem?_eq_getElem hi, Option.getD_some]
    rw [hscal, hinp]

/-- Claim C3: for an input vector of length `pin_count`, the LWE sum built
    by `evaluate_gate` and passed to the bootstrap starts from the all-zero
    container of length `n + 1` and its coefficient `j` is the sum, modulo
    2^32, over the pins `i` of: the coefficient `j` of `inputs[i]` times
    the scalar `input_mappings_1[m - 1 - i]` for an `Encrypted` pin, the
    lifted scalar on the body coefficient only for a `Trivial(true)` pin,
    and nothing for a `Trivial(false)` pin. -/
theorem evaluate_gate_linear_sum (e : Encoding) (n : Nat) (inputs : List Ciphertext) (hm : inputs.length = e.input_mappings_1.length) (hc : ∀ ct ∈ inputs, encLenOK n ct = true) :
    (gate_sum e n inputs).length = n + 1 ∧
    ∀ j, j < n + 1 → (gate_sum e n inputs).getD j 0 =
      ((List.range inputs.length).map (pinContribution e n j inputs)).sum % 2 ^ 32 := by
  have hok : ∀ pr ∈ e.input_mappings_1.reverse.zip inputs, encLenOK n pr.2 = true := by
    intro pr hpr
    exact hc pr.2 (List.of_mem_zip hpr).2
  obtain ⟨hlen, _, hval⟩ := gateFold_spec e n (e.input_mappings_1.reverse.zip inputs)
    (List.replicate (n + 1) 0) hok (by simp) (by intro x hx; rw [List.mem_replicate] at hx; omega)
  refine ⟨hlen, ?_⟩
  intro j hj
  rw [gate_sum, hval j hj, gate_pairs_map_eq e n j inputs hm]
  rw [List.getD_eq_getElem?_getD, List.getElem?_replicate, if_pos hj]
  simp

/-- Witness for claim C3 at a concrete gate call: one encrypted pin and one
    trivial-true pin of the two-pin AND encoding. -/
theorem evaluate_gate_linear_sum_witness :
    (([Ciphertext.Encrypted [5, 7], Ciphertext.Trivial true] : List Ciphertext).length = andEncoding.input_mappings_1.length ∧
     (∀ ct ∈ ([Ciphertext.Encrypted [5, 7], Ciphertext.Trivial true] : List Ciphertext), encLenOK 1 ct = true)) ∧
    ((gate_sum andEncoding 1 [Ciphertext.Encrypted [5, 7], Ciphertext.Trivial true]).length = 1 + 1 ∧
     ∀ j, j < 1 + 1 → (gate_sum andEncoding 1 [Ciphertext.Encrypted [5, 7], Ciphertext.Trivial true]).getD j 0 =
       ((List.range ([Ciphertext.Encrypted [5, 7], Ciphertext.Trivial true] : List Ciphertext).length).map
         (pinContribution andEncoding 1 j [Ciphertext.Encrypted [5, 7], Ciphertext.Trivial true])).sum % 2 ^ 32) :=
  ⟨⟨by decide, by decide⟩,
   evaluate_gate_linear_sum andEncoding 1 [Ciphertext.Encrypted [5, 7], Ciphertext.Trivial true]
     (by decide) (by decide)⟩

/-- The accumulator loop never changes the length of the vector. -/
theorem accFold_length (e : Encoding) (l : List Nat) : ∀ L : List Nat, (l.foldl (accStep e) L).length = L.length := by
  induction l with
  | nil => intro L; rfl
  | cons a t ih =>
      intro L
      simp only [List.foldl_cons]
      rw [ih]
      simp [accStep]

/-- Indices at or beyond `2 * k` are untouched by the first `k` accumulator
    loop iterations. -/
theorem accFold_getElem_ge (e : Encoding) (k : Nat) : ∀ (L : List Nat) (j : Nat), 2 * k ≤ j → ((List.range k).foldl (accStep e) L)[j]? = L[j]? := by
  induction k with
  | zero => intro L j _; rfl
  | succ k ih =>
      intro L j hj
      rw [List.range_succ, List.foldl_append, List.foldl_cons, List.foldl_nil, accStep,
        List.getElem?_set_ne (by omega), List.getElem?_set_ne (by omega)]
      exact ih L j (by omega)

/-- After the first `k` accumulator loop iterations, indices `2 * i` and
    `2 * i + 1` with `i < k` hold the even and odd window values. -/
theorem accFold_getElem_lt (e : Encoding) (k : Nat) : ∀ (L : List Nat) (i : Nat), i < k → 2 * i + 1 < L.length → ((List.range k).foldl (accStep e) L)[2 * i]? = some (accEven e i) ∧ ((List.range k).foldl (accStep e) L)[2 * i + 1]? = some (accOdd e i) := by
  induction k with
  | zero => intro L i h _; omega
  | succ k ih =>
      intro L i hik hlen
      rw [List.range_succ, List.foldl_append, List.foldl_cons, List.foldl_nil, accStep]
      have hF : ((List.range k).foldl (accStep e) L).length = L.length :=
        accFold_length e _ L
      rcases Nat.lt_or_ge i k with hik2 | hik2
      · constructor
        · rw [List.getElem?_set_ne (by omega), List.getElem?_set_ne (by omega)]
          exact (ih L i hik2 hlen).1
        · rw [List.getElem?_set_ne (by omega), List.getElem?_set_ne (by omega)]
          exact (ih L i hik2 hlen).2
      · have hik3 : i = k := by omega
        subst hik3
        constructor
        · rw [List.getElem?_set_ne (by omega)]
          exact List.getElem?_set_self (by rw [hF]; omega)
        · exact List.getElem?_set_self (by simp [hF]; omega)

/-- Claim C1: for a canonical encoding (`new_0 = 0`, `new_1 = 1`,
    `new_p = p`) with `p ≥ 2`, `create_accumulator` returns a vector of
    length `p + 1` whose entry at `2 * i` is 0 or 1 by membership of
    `alpha = i` in `output_encodings_0`, whose entry at `2 * i + 1` is
    `(p - 0) % p` or `(p - 1) % p` by membership of
    `beta = (i + (p + 1) / 2) % p`, and all of whose entries lie in
    `{0, 1, p - 1}`. -/
theorem create_accumulator_canonical_spec (e : Encoding) (h0 : e.new_0 = 0) (h1 : e.new_1 = 1) (hnp : e.new_p = e.p) (hp : 2 ≤ e.p) :
    (create_accumulator e).length = e.p + 1 ∧
    (∀ i, i < (e.p + 1) / 2 →
      (create_accumulator e).getD (2 * i) 0 = (if i ∈ e.output_encodings_0 then 0 else 1) ∧
      (create_accumulator e).getD (2 * i + 1) 0 =
        (if (i + (e.p + 1) / 2) % e.p ∈ e.output_encodings_0
         then (e.p - 0) % e.p else (e.p - 1) % e.p)) ∧
    (∀ v ∈ create_accumulator e, v = 0 ∨ v = 1 ∨ v = e.p - 1) := by
  have hlen : (create_accumulator e).length = e.p + 1 := by
    rw [create_accumulator, accFold_length, List.length_replicate]
  have heven : ∀ i, i < (e.p + 1) / 2 →
      (create_accumulator e)[2 * i]? = some (accEven e i) ∧
      (create_accumulator e)[2 * i + 1]? = some (accOdd e i) := by
    intro i hi
    exact accFold_getElem_lt e ((e.p + 1) / 2) (List.replicate (e.p + 1) 0) i hi
      (by rw [List.length_replicate]; omega)
  refine ⟨hlen, ?_, ?_⟩
  · intro i hi
    constructor
    · rw [List.getD_eq_getElem?_getD, (heven i hi).1]
      simp [accEven, h0, h1]
    · rw [List.getD_eq_getElem?_getD, (heven i hi).2]
      simp [accOdd, h0, h1, hnp]
  · intro v hv
    rw [List.mem_iff_getElem] at hv
    obtain ⟨n, hn, hval⟩ := hv
    rw [hlen] at hn
    have hval2 : (create_accumulator e)[n]? = some v := by
      rw [List.getElem?_eq_getElem (by rw [hlen]; omega), hval]
    rcases Nat.lt_or_ge n (2 * ((e.p + 1) / 2)) with hcase | hcase
    · rcases Nat.even_or_odd n with ⟨i, hni⟩ | ⟨i, hni⟩
      · have hi : i < (e.p + 1) / 2 := by omega
        have := (heven i hi).1
        rw [hni, show i + i = 2 * i by omega, this] at hval2
        have hv2 : v = accEven e i := by injection hval2 with h; exact h.symm
        rw [hv2, accEven, h0, h1]
        split <;> simp
      · have hi : i < (e.p + 1) / 2 := by omega
        have := (heven i hi).2
        rw [hni, this] at hval2
        have hv2 : v = accOdd e i := by injection hval2 with h; exact h.symm
        rw [hv2, accOdd, h0, h1, hnp]
        have hz : (e.p - 0) % e.p = 0 := by
          rw [Nat.sub_zero, Nat.mod_self]
        have ho : (e.p - 1) % e.p = e.p - 1 :=
          Nat.mod_eq_of_lt (by omega)
        split <;> omega
    · rw [create_accumulator, accFold_getElem_ge e _ _ _ hcase,
        List.getElem?_replicate] at hval2
      have : n < e.p + 1 := by omega
      rw [if_pos this] at hval2
      have hv0 : v = 0 := by injection hval2.symm
      omega

/-- Witness for claim C1 at the canonical two-pin AND encoding with
    `p = 3`. -/
theorem create_accumulator_canonical_spec_witness :
    (andEncoding.new_0 = 0 ∧ andEncoding.new_1 = 1 ∧ andEncoding.new_p = andEncoding.p ∧ 2 ≤ andEncoding.p) ∧
    ((create_accumulator andEncoding).length = andEncoding.p + 1 ∧
     (∀ i, i < (andEncoding.p + 1) / 2 →
       (create_accumulator andEncoding).getD (2 * i) 0 =
         (if i ∈ andEncoding.output_encodings_0 then 0 else 1) ∧
       (create_accumulator andEncoding).getD (2 * i + 1) 0 =
         (if (i + (andEncoding.p + 1) / 2) % andEncoding.p ∈ andEncoding.output_encodings_0
          then (andEncoding.p - 0) % andEncoding.p else (andEncoding.p - 1) % andEncoding.p)) ∧
     (∀ v ∈ create_accumulator andEncoding, v = 0 ∨ v = 1 ∨ v = andEncoding.p - 1)) :=
  ⟨⟨rfl, rfl, rfl, by decide⟩,
   create_accumulator_canonical_spec andEncoding rfl rfl rfl (by decide)⟩

/-- Witness for the amended claim C5 at a concrete input. -/
theorem decode_encode_roundtrip_witness :
    (2 ≤ 3 ∧ 3 ≤ 2 ^ 31 ∧ 2 < 3) ∧ decode_raw 3 (encodePlain 3 2) = 2 :=
  ⟨⟨by decide, by norm_num, by decide⟩, decode_encode_roundtrip 3 2 (by decide) (by norm_num) (by decide)⟩

end TfheGadget
